import Mathlib

/-!
Shallow embedding of the mail dispatch orchestrator (`EmailOrchestrator` in the
backend's email service module) and proofs about its quota, routing, bulk and
campaign-templating behaviour.

Conventions used throughout:
* JavaScript `throw` / `try-catch` is embedded as `Except String`.
* The `dailySendCounts` map with its `get(k) || 0` read pattern is embedded as a
  total function `String → Nat` defaulting to zero.
* The two nodemailer transports are an oracle `MailOptions → Except String String`
  supplied per call: `Except.ok id` is a successful provider response carrying the
  message id, `Except.error e` a transport rejection.
* The log sink (supabase insert) is an oracle `Bool` per call: `true` means the
  insert succeeds, `false` that it fails.
-/

set_option maxHeartbeats 1000000

/-- Truthiness of a JavaScript string-or-undefined value: `undefined` and the empty
string are falsy, every other string is truthy. -/
def jsTruthy : Option String → Bool
  | none => false
  | some s => !(s == "")

/-- JavaScript `x || d` for an optional string `x`: the default `d` is used when `x`
is undefined or the empty string. -/
def jsOr (x : Option String) (d : String) : String :=
  match x with
  | none => d
  | some s => if s = "" then d else s

/-- One configured sending account (the `transporter` handle carries no observable
data and is omitted). -/
structure Account where
  email : String
  dailyLimit : Nat
  isWorkspace : Bool
deriving DecidableEq

/-- Mutable orchestrator state: the account list, the round-robin cursor
`currentAccountIndex`, the `dailySendCounts` map and the Postal relay flag. -/
structure OState where
  accounts : List Account
  currentAccountIndex : Nat
  dailySendCounts : String → Nat
  postalEnabled : Bool

/-- The options bag accepted by `sendEmail` (source field `from` is called
`fromAddr` here, `to` is `toAddr`, `text` is `textBody`). -/
structure SendRequest where
  fromAddr : Option String := none
  toAddr : String := ""
  subject : String := ""
  html : String := ""
  textBody : Option String := none
  replyTo : Option String := none
  headers : List (String × String) := []
  attachments : List String := []
  usePostal : Bool := false

/-- The message object handed to a transporter's `sendMail` (source field `from` is
called `sender` here). Header maps are association lists in which a later entry
overrides an earlier one, matching JavaScript object spread. -/
structure MailOptions where
  sender : String
  toAddr : String
  subject : String
  html : String
  textBody : String
  replyTo : Option String
  headers : List (String × String)
  attachments : List String
deriving DecidableEq

/-- Remaining daily quota reported in a send result: a number for a pool account,
the `unlimited` sentinel for the Postal relay. -/
inductive Remaining where
  | finite : Nat → Remaining
  | unlimited : Remaining
deriving DecidableEq

/-- The result object returned by a successful `sendEmail` / `sendViaPostal`. -/
structure SendResult where
  success : Bool
  messageId : String
  sentBy : String
  remainingToday : Remaining
deriving DecidableEq

/-- A transport oracle: what the invoked transporter's `sendMail` would do with the
message it is given. -/
abbrev Transport := MailOptions → Except String String

/-- Map update for the `dailySendCounts` function embedding of the JS `Map.set`. -/
def setCount (f : String → Nat) (k : String) (v : Nat) : String → Nat :=
  fun e => if e = k then v else f e

/-- Boolean test that the pattern is an initial run of the text. -/
def leadsWith : List Char → List Char → Bool
  | [], _ => true
  | _ :: _, [] => false
  | p :: ps, c :: cs => p == c && leadsWith ps cs

/-- JavaScript `s.endsWith(suffix)` as a structural suffix test on the character
lists. -/
def jsEndsWith (s suffix : String) : Bool :=
  leadsWith suffix.data.reverse s.data.reverse

/-- The daily quota rule inside `initializeAccounts`: an address not ending in
`@gmail.com` is treated as a Google Workspace account with the higher limit. -/
def mkAccount (email : String) : Account :=
  let isWorkspace := !(jsEndsWith email ("@gmail.com"))
  { email := email, dailyLimit := if isWorkspace then 2000 else 500, isWorkspace := isWorkspace }

/-- The account loading loop of `initializeAccounts`: starting at index 1, stop at
the first missing or empty `GMAIL_EMAIL_i` variable; an entry whose password
variable is missing or empty is skipped silently. `fuel` bounds the loop and is
faithful for any value at least the index of the first gap. -/
def initAccountsAux (env : String → Option String) : Nat → Nat → List Account
  | 0, _ => []
  | fuel + 1, i =>
    let email? := env ("GMAIL_EMAIL_" ++ toString i)
    if jsTruthy email? then
      let rest := initAccountsAux env fuel (i + 1)
      match email? with
      | some email =>
        if jsTruthy (env ("GMAIL_APP_PASSWORD_" ++ toString i)) then mkAccount email :: rest
        else rest
      | none => rest
    else []

/-- `initializeAccounts` over an environment. -/
def initAccounts (env : String → Option String) (fuel : Nat) : List Account :=
  initAccountsAux env fuel 1

/-- Orchestrator state right after the constructor ran: accounts loaded, cursor at
zero, every daily count zero, relay flag from `initializePostal`'s credential
check. -/
def initState (env : String → Option String) (fuel : Nat) : OState :=
  { accounts := initAccounts env fuel
    currentAccountIndex := 0
    dailySendCounts := fun _ => 0
    postalEnabled := jsTruthy (env ("POSTAL_HOST")) && jsTruthy (env ("POSTAL_API_KEY")) }

/-- The midnight reset action scheduled by `startDailyReset`: clear the counts map,
then set each configured account back to zero. -/
def resetAll (s : OState) : OState :=
  { s with dailySendCounts := s.accounts.foldl (fun f a => setCount f a.email 0) (fun _ => 0) }

/-- Remaining quota of one account as computed by `getStats`. -/
def remaining (s : OState) (a : Account) : Nat :=
  a.dailyLimit - s.dailySendCounts a.email

/-- The scan loop inside `getNextAccount`: examine the account under the cursor and
return it if it is below its daily limit, otherwise advance the cursor modulo the
pool size; at most `fuel` accounts are examined (the source runs the loop
`accounts.length` times). The returned number is the cursor value after the scan,
mirroring the in-place mutation of `currentAccountIndex`. -/
def scanPool (accounts : List Account) (counts : String → Nat) : Nat → Nat → Option Account × Nat
  | 0, idx => (none, idx)
  | fuel + 1, idx =>
    match accounts.get? idx with
    | none => (none, idx)
    | some a =>
      if counts a.email < a.dailyLimit then (some a, idx)
      else scanPool accounts counts fuel ((idx + 1) % accounts.length)

/-- `getNextAccount`: `none` immediately on an empty pool (cursor untouched),
otherwise the quota-aware scan of at most `accounts.length` entries. -/
def getNextAccount (s : OState) : Option Account × Nat :=
  if s.accounts.isEmpty then (none, s.currentAccountIndex)
  else scanPool s.accounts s.dailySendCounts s.accounts.length s.currentAccountIndex

/-- Consume characters up to and including the first closing angle bracket, i.e. the
rest of one match of the tag-stripping pattern; `none` when no closing bracket
exists, in which case the pattern does not match at this position. -/
def dropTag : List Char → Option (List Char)
  | [] => none
  | c :: rest => if c = '>' then some rest else dropTag rest

/-- Scanner for the global tag-stripping replacement in `htmlToText`. -/
def stripTagsAux : Nat → List Char → List Char
  | 0, l => l
  | _, [] => []
  | fuel + 1, c :: rest =>
    if c = '<' then
      match dropTag rest with
      | some rest2 => stripTagsAux fuel rest2
      | none => c :: stripTagsAux fuel rest
    else c :: stripTagsAux fuel rest

/-- `htmlToText`: strip tag-shaped regions from the markup and trim the result. -/
def htmlToText (html : String) : String :=
  (String.mk (stripTagsAux html.data.length html.data)).trim

/-- Message construction on the pool path of `sendEmail`: sender and reply-to
default through JavaScript `||` to the chosen account, the default headers carry
the X-Sent-Via routing trace, and caller-supplied header keys override the
defaults (object spread puts them last). -/
def buildMailOptions (r : SendRequest) (a : Account) : MailOptions :=
  { sender := jsOr r.fromAddr ("\"Bowery Creative\" <" ++ a.email ++ ">")
    toAddr := r.toAddr
    subject := r.subject
    html := r.html
    textBody := jsOr r.textBody (htmlToText r.html)
    replyTo := some (jsOr r.replyTo a.email)
    headers := [("X-Mailer", "Bowery Creative Email System"), ("X-Sent-Via", a.email)] ++ r.headers
    attachments := r.attachments }

/-- Message construction inside `sendViaPostal`. -/
def buildPostalOptions (r : SendRequest) : MailOptions :=
  { sender := jsOr r.fromAddr ("\"Bowery Creative\" <noreply@bowerycreativeagency.com>")
    toAddr := r.toAddr
    subject := r.subject
    html := r.html
    textBody := jsOr r.textBody (htmlToText r.html)
    replyTo := r.replyTo
    headers := [("X-Mailer", "Bowery Creative Postal Server")] ++ r.headers
    attachments := r.attachments }

/-- Header lookup with the override discipline of object spread: the last entry for
a key wins. -/
def headerLookup (hs : List (String × String)) (k : String) : Option String :=
  List.lookup k hs.reverse

/-- The raw supabase insert behind `logEmail`, which can fail. -/
def supabaseInsert (sinkOk : Bool) : Except String Unit :=
  if sinkOk then Except.ok () else Except.error ("email_logs insert failed")

/-- `logEmail`: the insert runs inside its own try-catch, so a log sink failure is
swallowed and the function always resolves. -/
def logEmail (sinkOk : Bool) : Except String Unit :=
  match supabaseInsert sinkOk with
  | Except.ok _ => Except.ok ()
  | Except.error _ => Except.ok ()

/-- `sendViaPostal`: reject when the relay is not configured, otherwise invoke the
postal transporter, log, and return the unlimited-quota result. The orchestrator
state is never modified on this path. -/
def sendViaPostal (s : OState) (r : SendRequest) (tr : Transport) (sinkOk : Bool) :
    Except String SendResult × OState :=
  if s.postalEnabled = false then (Except.error "Postal server is not configured", s)
  else
    match tr (buildPostalOptions r) with
    | Except.error e => (Except.error e, s)
    | Except.ok mid =>
      match logEmail sinkOk with
      | Except.error e => (Except.error e, s)
      | Except.ok _ =>
        (Except.ok { success := true, messageId := mid, sentBy := "postal",
                     remainingToday := Remaining.unlimited }, s)

/-- The pool branch of `sendEmail` after an account was selected at cursor position
`idx1`: invoke the account's transporter; on success increment the account's daily
count, advance the cursor past the account, log, and build the result; on a
transport rejection the count and cursor advance are skipped (the scan's cursor
position `idx1` is kept, because `getNextAccount` already wrote it back). -/
def poolSend (s : OState) (r : SendRequest) (a : Account) (idx1 : Nat) (tr : Transport)
    (sinkOk : Bool) : Except String SendResult × OState :=
  match tr (buildMailOptions r a) with
  | Except.error e => (Except.error e, { s with currentAccountIndex := idx1 })
  | Except.ok mid =>
    let counts2 := setCount s.dailySendCounts a.email (s.dailySendCounts a.email + 1)
    let s2 : OState := { s with dailySendCounts := counts2,
                                currentAccountIndex := (idx1 + 1) % s.accounts.length }
    match logEmail sinkOk with
    | Except.error e => (Except.error e, s2)
    | Except.ok _ =>
      (Except.ok { success := true, messageId := mid, sentBy := a.email,
                   remainingToday := Remaining.finite (a.dailyLimit - counts2 a.email) }, s2)

/-- The body of `sendEmail`'s try block: relay when forced and available, otherwise
pool selection with relay escalation on exhaustion, else the terminal capacity
error. -/
def dispatchTry (s : OState) (r : SendRequest) (tr : Transport) (sinkOk : Bool) :
    Except String SendResult × OState :=
  if r.usePostal && s.postalEnabled then sendViaPostal s r tr sinkOk
  else
    match getNextAccount s with
    | (none, idx1) =>
      let s1 : OState := { s with currentAccountIndex := idx1 }
      if s.postalEnabled then sendViaPostal s1 r tr sinkOk
      else (Except.error "All email accounts have reached their daily limits", s1)
    | (some a, idx1) => poolSend s r a idx1 tr sinkOk

/-- `sendEmail`: the try body wrapped in the catch that writes a failure log entry
(itself swallowed by `logEmail`) and rethrows the original error. -/
def dispatch (s : OState) (r : SendRequest) (tr : Transport) (sinkOk : Bool) :
    Except String SendResult × OState :=
  match dispatchTry s r tr sinkOk with
  | (Except.ok res, s1) => (Except.ok res, s1)
  | (Except.error e, s1) =>
    match logEmail sinkOk with
    | _ => (Except.error e, s1)

/-- One element of a dispatch trace: the request plus the transport and log-sink
behaviour the environment would exhibit for this call. -/
structure DispatchCall where
  req : SendRequest
  tr : Transport
  sinkOk : Bool

/-- State evolution over a sequence of `sendEmail` calls. -/
def runDispatches (s : OState) (calls : List DispatchCall) : OState :=
  calls.foldl (fun st c => (dispatch st c.req c.tr c.sinkOk).2) s

/-- One per-item outcome collected by `sendBulk`: a spread send result tagged with
the item's index, or the captured error message with its index. -/
inductive BulkOutcome where
  | ok : SendResult → Nat → BulkOutcome
  | err : Nat → String → BulkOutcome
deriving DecidableEq

/-- The index carried by a bulk outcome. -/
def BulkOutcome.idx : BulkOutcome → Nat
  | BulkOutcome.ok _ i => i
  | BulkOutcome.err i _ => i

/-- Whether a bulk outcome is a success. -/
def BulkOutcome.isOk : BulkOutcome → Bool
  | BulkOutcome.ok _ _ => true
  | BulkOutcome.err _ _ => false

/-- The `sendBulk` loop: sequential dispatch, one outcome per item in input order,
each tagged with its index; a failed item is captured and the loop continues. The
inter-message wait sits on the success path, guarded by `index < total - 1` and a
positive delay; the middle component counts the waits actually performed. -/
def sendBulkAux (delayBetween total : Nat) :
    OState → List DispatchCall → Nat → List BulkOutcome × Nat × OState
  | s, [], _ => ([], 0, s)
  | s, c :: rest, index =>
    match dispatch s c.req c.tr c.sinkOk with
    | (Except.ok res, s1) =>
      let d := if index < total - 1 ∧ 0 < delayBetween then 1 else 0
      let t := sendBulkAux delayBetween total s1 rest (index + 1)
      (BulkOutcome.ok res index :: t.1, d + t.2.1, t.2.2)
    | (Except.error e, s1) =>
      let t := sendBulkAux delayBetween total s1 rest (index + 1)
      (BulkOutcome.err index e :: t.1, t.2.1, t.2.2)

/-- `sendBulk` (the source's default delay is 5000 ms). -/
def sendBulk (s : OState) (items : List DispatchCall) (delayBetween : Nat) :
    List BulkOutcome × Nat × OState :=
  sendBulkAux delayBetween items.length s items 0

/-- JavaScript word character, the `\w` class: ASCII letters, digits, underscore. -/
def isWordChar (c : Char) : Bool := c.isAlphanum || c = '_'

/-- The literal placeholder text for a key (braces written as hex escapes). -/
def ph (key : String) : String := "\x7b\x7b" ++ key ++ "\x7d\x7d"

/-- Replacement chosen by the subject template callback: the recipient's field when
it is truthy, otherwise the matched placeholder itself (so an absent key or an
empty value leaves the placeholder literal). -/
def subjRep (fields : List (String × String)) (key : String) : String :=
  match List.lookup key fields with
  | some v => if v = "" then ph key else v
  | none => ph key

/-- Replacement performed on the body for a key of the record: the field value,
with an absent key leaving the placeholder intact (no such replacement pass
runs). -/
def bodyRep (fields : List (String × String)) (key : String) : String :=
  match List.lookup key fields with
  | some v => v
  | none => ph key

/-- Two closing braces after the key run, the tail of one placeholder match. -/
def afterKey : List Char → Option (List Char)
  | d1 :: d2 :: rest => if d1 = '}' ∧ d2 = '}' then some rest else none
  | _ => none

/-- Scanner for the subject's global placeholder regex: at each position try to
match two opening braces, a nonempty run of word characters and two closing
braces; on a match emit the callback's replacement and continue after the match,
otherwise emit one character and rescan from the next position (the regex engine
advances by one on failure). `fuel` bounds the scan; the input length is always
enough since every step consumes at least one character. -/
def renderSubjectAux (fields : List (String × String)) : Nat → List Char → List Char
  | 0, l => l
  | _ + 1, [] => []
  | fuel + 1, c :: rest =>
    if c = '{' then
      match rest with
      | c2 :: rest2 =>
        if c2 = '{' then
          let w := rest2.takeWhile isWordChar
          match afterKey (rest2.dropWhile isWordChar) with
          | some rest4 =>
            if w = [] then c :: renderSubjectAux fields fuel rest
            else (subjRep fields (String.mk w)).data ++ renderSubjectAux fields fuel rest4
          | none => c :: renderSubjectAux fields fuel rest
        else c :: renderSubjectAux fields fuel rest
      | [] => c :: renderSubjectAux fields fuel rest
    else c :: renderSubjectAux fields fuel rest

/-- Subject templating of `executeCampaignSend`: the global word-key placeholder
replacement through the truthiness callback. -/
def renderSubject (fields : List (String × String)) (s : String) : String :=
  String.mk (renderSubjectAux fields s.data.length s.data)

/-- Scanner for a global replacement of a literal pattern: left to right,
non-overlapping, the replacement text is not rescanned. `fuel` bounds the scan and
the input length is always enough for a nonempty pattern. -/
def replaceAllAux (pat repl : List Char) : Nat → List Char → List Char
  | 0, l => l
  | _ + 1, [] => []
  | fuel + 1, c :: rest =>
    if leadsWith pat (c :: rest) then
      repl ++ replaceAllAux pat repl fuel (List.drop pat.length (c :: rest))
    else c :: replaceAllAux pat repl fuel rest

/-- JavaScript `s.replace(new RegExp(lit, g), repl)` for a literal pattern `lit`,
as built by the body templating loop from a word-character key (such keys contain
no regex metacharacters, and the theorems below restrict field values to plain
text with no dollar patterns, where `replace` is literal). -/
def jsReplaceAll (s pat repl : String) : String :=
  String.mk (replaceAllAux pat.data repl.data s.data.length s.data)

/-- Body templating of `executeCampaignSend`: one global placeholder replacement
per field of the recipient record, in record order. -/
def renderBody (fields : List (String × String)) (template : String) : String :=
  fields.foldl (fun acc kv => jsReplaceAll acc (ph kv.1) kv.2) template

/-- The per-recipient rendering performed by a campaign wave: the subject through
the callback regex, the body through the per-key replacement loop. -/
def renderForRecipient (recipient : List (String × String))
    (subjectTemplate htmlTemplate : String) : String × String :=
  (renderSubject recipient subjectTemplate, renderBody recipient htmlTemplate)

/-! ### Basic facts about the embedded operations -/

theorem logEmail_ok (sinkOk : Bool) : logEmail sinkOk = Except.ok () := by
  cases sinkOk <;> rfl

theorem dispatch_fst (s : OState) (r : SendRequest) (tr : Transport) (k : Bool) :
    (dispatch s r tr k).1 = (dispatchTry s r tr k).1 := by
  unfold dispatch
  rcases h : dispatchTry s r tr k with ⟨res, s1⟩
  cases res <;> simp [logEmail_ok]

theorem lookupAppend (k : String) (l1 l2 : List (String × String)) :
    List.lookup k (l1 ++ l2) =
      match List.lookup k l1 with
      | some v => some v
      | none => List.lookup k l2 := by
  induction l1 with
  | nil => rfl
  | cons p t ih =>
    rcases p with ⟨k1, v1⟩
    by_cases h : k = k1
    · have hb : (k == k1) = true := beq_iff_eq.mpr h
      simp [List.lookup, hb]
    · have hb : (k == k1) = false := beq_eq_false_iff_ne.mpr h
      simp [List.lookup, hb, ih]

theorem lookup_none_of_no_key {k : String} :
    ∀ {l : List (String × String)}, (∀ p ∈ l, p.1 ≠ k) → List.lookup k l = none := by
  intro l
  induction l with
  | nil => intro _; rfl
  | cons p t ih =>
    intro h
    rcases p with ⟨k1, v1⟩
    have h1 : k1 ≠ k := h (k1, v1) (List.mem_cons_self _ _)
    have hb : (k == k1) = false := beq_eq_false_iff_ne.mpr (fun he => h1 he.symm)
    simp only [List.lookup, hb]
    exact ih (fun q hq => h q (List.mem_cons_of_mem _ hq))

theorem scanPool_some {accounts : List Account} {counts : String → Nat} :
    ∀ {fuel idx a i}, scanPool accounts counts fuel idx = (some a, i) →
      a ∈ accounts ∧ counts a.email < a.dailyLimit ∧ accounts.get? i = some a := by
  intro fuel
  induction fuel with
  | zero => intro idx a i h; simp [scanPool] at h
  | succ n ih =>
    intro idx a i h
    unfold scanPool at h
    split at h
    · exact absurd h (by simp)
    · next b hg =>
      split at h
      · next hc =>
        injection h with h1 h2
        obtain rfl : b = a := Option.some.inj h1
        obtain rfl : idx = i := h2
        exact ⟨List.get?_mem hg, hc, hg⟩
      · exact ih h

theorem scanPool_none_of_maxed {accounts : List Account} {counts : String → Nat}
    (hmax : ∀ a ∈ accounts, a.dailyLimit ≤ counts a.email) :
    ∀ fuel idx, (scanPool accounts counts fuel idx).1 = none := by
  intro fuel
  induction fuel with
  | zero => intro idx; rfl
  | succ n ih =>
    intro idx
    unfold scanPool
    split
    · rfl
    · next b hg =>
      have hb : b ∈ accounts := List.get?_mem hg
      have hnc : ¬ counts b.email < b.dailyLimit := Nat.not_lt.mpr (hmax b hb)
      rw [if_neg hnc]
      exact ih _

theorem getNextAccount_none_of_maxed {s : OState}
    (hmax : ∀ a ∈ s.accounts, a.dailyLimit ≤ s.dailySendCounts a.email) :
    (getNextAccount s).1 = none := by
  unfold getNextAccount
  by_cases he : s.accounts.isEmpty
  · rw [if_pos he]
  · rw [if_neg he]; exact scanPool_none_of_maxed hmax _ _

theorem getNextAccount_some {s : OState} {a : Account} {i : Nat}
    (h : getNextAccount s = (some a, i)) :
    a ∈ s.accounts ∧ s.dailySendCounts a.email < a.dailyLimit ∧ s.accounts.get? i = some a := by
  unfold getNextAccount at h
  by_cases he : s.accounts.isEmpty
  · rw [if_pos he] at h; simp at h
  · rw [if_neg he] at h; exact scanPool_some h

/-! ### Concrete fixture used by witnesses and counterexamples -/

def exAcct : Account := { email := "a@gmail.com", dailyLimit := 2, isWorkspace := false }

def exAcctB : Account := { email := "b@gmail.com", dailyLimit := 2, isWorkspace := false }

def exReq : SendRequest := { toAddr := "x@y.com", subject := "s", html := "h" }

def exTrOk : Transport := fun _ => Except.ok "mid-1"

def exTrFail : Transport := fun _ => Except.error "boom"

def exState : OState :=
  { accounts := [exAcct, exAcctB], currentAccountIndex := 0,
    dailySendCounts := fun _ => 0, postalEnabled := false }

def exStateUsed : OState :=
  { accounts := [exAcct, exAcctB], currentAccountIndex := 0,
    dailySendCounts := fun _ => 2, postalEnabled := false }

/-! ### Daily reset (claim C7) -/

theorem resetCounts_zero (accounts : List Account) :
    (accounts.foldl (fun f a => setCount f a.email 0) (fun _ => 0)) = fun _ => 0 := by
  suffices h : ∀ (f : String → Nat), (∀ e, f e = 0) →
      ∀ e, (accounts.foldl (fun f a => setCount f a.email 0) f) e = 0 by
    funext e; exact h _ (fun _ => rfl) e
  induction accounts with
  | nil => intro f hf e; exact hf e
  | cons a t ih =>
    intro f hf e
    refine ih _ ?_ e
    intro e'
    unfold setCount
    by_cases h : e' = a.email <;> simp [h, hf]

/-- C7: after the daily reset action runs, `remaining` equals the daily quota for
every configured account regardless of prior usage, and the reset is idempotent. -/
theorem C7_daily_reset (s : OState) :
    (∀ a ∈ s.accounts, remaining (resetAll s) a = a.dailyLimit) ∧
      resetAll (resetAll s) = resetAll s := by
  constructor
  · intro a _
    unfold remaining resetAll
    simp [resetCounts_zero s.accounts]
  · rfl

/-- Witness for C7 at a state with nonzero prior usage. -/
theorem C7_daily_reset_witness :
    remaining (resetAll exStateUsed) exAcct = exAcct.dailyLimit ∧
      resetAll (resetAll exStateUsed) = resetAll exStateUsed := by
  have h := C7_daily_reset exStateUsed
  exact ⟨h.1 exAcct (by simp [exStateUsed]), h.2⟩

/-! ### Log sink isolation (claim C9) -/

/-- C9: the outcome of a send, result and state alike, is identical whether the
log-sink write succeeds or fails; the failure is swallowed inside `logEmail` and
never surfaces to the caller. -/
theorem C9_log_sink_isolated (s : OState) (r : SendRequest) (tr : Transport)
    (k1 k2 : Bool) : dispatch s r tr k1 = dispatch s r tr k2 := by
  cases k1 <;> cases k2 <;> rfl

/-! ### Forced relay without a configured relay (claim C10) -/

theorem buildMailOptions_usePostal (r : SendRequest) (a : Account) (b : Bool) :
    buildMailOptions { r with usePostal := b } a = buildMailOptions r a := rfl

theorem dispatchTry_usePostal_off (s : OState) (r : SendRequest) (tr : Transport) (k : Bool)
    (hpostal : s.postalEnabled = false) :
    dispatchTry s r tr k = dispatchTry s { r with usePostal := false } tr k := by
  unfold dispatchTry
  rw [hpostal]
  simp only [Bool.and_false, Bool.false_eq_true, if_false]
  rcases hga : getNextAccount s with ⟨opt, i⟩
  cases opt with
  | none => simp [hpostal]
  | some a => simp [poolSend, buildMailOptions_usePostal]

/-- C10: with the force-relay flag set but no relay configured, the call falls
through to normal pool selection (it behaves exactly like the unforced call), and
it fails with the capacity-exhausted error precisely when the pool has no eligible
account. -/
theorem C10_force_relay_fallthrough (s : OState) (r : SendRequest) (tr : Transport) (k : Bool)
    (_hforce : r.usePostal = true) (hpostal : s.postalEnabled = false) :
    dispatch s r tr k = dispatch s { r with usePostal := false } tr k ∧
      ((∀ a ∈ s.accounts, a.dailyLimit ≤ s.dailySendCounts a.email) →
        (dispatch s r tr k).1 = Except.error "All email accounts have reached their daily limits") := by
  constructor
  · unfold dispatch
    rw [dispatchTry_usePostal_off s r tr k hpostal]
  · intro hmax
    have hnone := getNextAccount_none_of_maxed hmax
    rw [dispatch_fst]
    unfold dispatchTry
    rw [hpostal]
    simp only [Bool.and_false, Bool.false_eq_true, if_false]
    rcases hga : getNextAccount s with ⟨opt, i⟩
    rw [hga] at hnone
    obtain rfl : opt = none := hnone
    simp [hpostal]

/-- Witness for C10: a forced-relay request on a pool with remaining capacity and no
relay behaves like the unforced request, and on an exhausted pool yields the
capacity error. -/
theorem C10_force_relay_fallthrough_witness :
    dispatch exStateUsed { exReq with usePostal := true } exTrOk true =
        dispatch exStateUsed { { exReq with usePostal := true } with usePostal := false } exTrOk true ∧
      (dispatch exStateUsed { exReq with usePostal := true } exTrOk true).1 =
        Except.error "All email accounts have reached their daily limits" := by
  have h := C10_force_relay_fallthrough exStateUsed { exReq with usePostal := true } exTrOk true
    rfl rfl
  refine ⟨h.1, h.2 ?_⟩
  intro a ha
  have hor : a = exAcct ∨ a = exAcctB := by simpa [exStateUsed] using ha
  rcases hor with rfl | rfl <;> simp [exStateUsed, exAcct, exAcctB]

/-! ### Round-robin cursor movement (claim C2) -/

/-- C2 (amended): when a pool account is selected at cursor position `i`, a
successful send advances the cursor to the position after the account, while a
transport failure leaves the cursor on the account itself (the rotation turn is
consumed only on success). -/
theorem C2_cursor_amended (s : OState) (r : SendRequest) (tr : Transport) (k : Bool)
    (a : Account) (i : Nat)
    (hpath : (r.usePostal && s.postalEnabled) = false)
    (hsel : getNextAccount s = (some a, i)) :
    (dispatch s r tr k).2.currentAccountIndex =
      match tr (buildMailOptions r a) with
      | Except.ok _ => (i + 1) % s.accounts.length
      | Except.error _ => i := by
  unfold dispatch dispatchTry
  rw [hpath, hsel]
  simp only [Bool.false_eq_true, if_false]
  unfold poolSend
  cases htr : tr (buildMailOptions r a) with
  | error e => simp [htr, logEmail_ok]
  | ok mid => simp [htr, logEmail_ok]

/-- Witness for C2's amended statement on a concrete pool of two accounts. -/
theorem C2_cursor_amended_witness :
    (dispatch exState exReq exTrOk true).2.currentAccountIndex = (0 + 1) % 2 ∧
      (dispatch exState exReq exTrFail true).2.currentAccountIndex = 0 := by
  constructor
  · have h := C2_cursor_amended exState exReq exTrOk true exAcct 0 rfl (by decide)
    simpa [exTrOk] using h
  · have h := C2_cursor_amended exState exReq exTrFail true exAcct 0 rfl (by decide)
    simpa [exTrFail] using h

/-- Counterexample to C2 as stated: on a two-account pool the transport failure of
the first dispatch leaves the cursor at position 0 — not at position (0+1) % 2
after the used account — and the very next selection returns the same account
again. -/
theorem C2_counterexample :
    getNextAccount exState = (some exAcct, 0) ∧
      (dispatch exState exReq exTrFail true).2.currentAccountIndex = 0 ∧
      ¬ (dispatch exState exReq exTrFail true).2.currentAccountIndex = (0 + 1) % 2 ∧
      (getNextAccount ((dispatch exState exReq exTrFail true).2)).1 = some exAcct := by
  decide

/-! ### Exhaustion escalation (claim C3) -/

theorem sendViaPostal_fst_cursor (s : OState) (i : Nat) (r : SendRequest) (tr : Transport)
    (k : Bool) :
    (sendViaPostal { s with currentAccountIndex := i } r tr k).1 = (sendViaPostal s r tr k).1 := by
  unfold sendViaPostal
  by_cases h : s.postalEnabled = false
  · simp [h]
  · simp only [h, if_false]
    cases htr : tr (buildPostalOptions r) <;> simp [htr, logEmail_ok]

/-- C3: with the force-relay flag clear and every pool account at (or beyond) its
daily limit — which also covers the empty pool — the dispatch is routed to the
relay when it is configured; when it is not, the call fails with the capacity
error, the outcome does not depend on the transport oracle at all (no transport is
invoked), and the counters are untouched. -/
theorem C3_exhaustion_escalation (s : OState) (r : SendRequest) (tr : Transport) (k : Bool)
    (hforce : r.usePostal = false)
    (hmax : ∀ a ∈ s.accounts, a.dailyLimit ≤ s.dailySendCounts a.email) :
    (s.postalEnabled = true → (dispatch s r tr k).1 = (sendViaPostal s r tr k).1) ∧
      (s.postalEnabled = false →
        ∀ tr2 : Transport,
          (dispatch s r tr2 k).1 = Except.error "All email accounts have reached their daily limits" ∧
            (dispatch s r tr2 k).2.dailySendCounts = s.dailySendCounts) := by
  have hnone := getNextAccount_none_of_maxed hmax
  constructor
  · intro hp
    rw [dispatch_fst]
    unfold dispatchTry
    rw [hforce]
    simp only [Bool.false_and, Bool.false_eq_true, if_false]
    rcases hga : getNextAccount s with ⟨opt, i⟩
    rw [hga] at hnone
    obtain rfl : opt = none := hnone
    change (if s.postalEnabled = true then
        sendViaPostal { s with currentAccountIndex := i } r tr k
      else (Except.error "All email accounts have reached their daily limits",
        { s with currentAccountIndex := i })).1 = (sendViaPostal s r tr k).1
    rw [if_pos hp]
    exact sendViaPostal_fst_cursor s i r tr k
  · intro hp tr2
    unfold dispatch dispatchTry
    rw [hforce]
    simp only [Bool.false_and, Bool.false_eq_true, if_false]
    rcases hga : getNextAccount s with ⟨opt, i⟩
    rw [hga] at hnone
    obtain rfl : opt = none := hnone
    simp [hp, logEmail_ok]

/-- Witness for C3 on an exhausted two-account pool without a relay. -/
theorem C3_exhaustion_escalation_witness :
    (dispatch exStateUsed exReq exTrOk true).1 =
        Except.error "All email accounts have reached their daily limits" ∧
      (dispatch exStateUsed exReq exTrOk true).2.dailySendCounts = exStateUsed.dailySendCounts := by
  have h := C3_exhaustion_escalation exStateUsed exReq exTrOk true rfl (by
    intro a ha
    have hor : a = exAcct ∨ a = exAcctB := by simpa [exStateUsed] using ha
    rcases hor with rfl | rfl <;> simp [exStateUsed, exAcct, exAcctB])
  exact h.2 rfl exTrOk

/-! ### Message construction defaults (claim C8) -/

/-- C8: on the pool path, a request without a sender gets the chosen account's
identity as the default sender (wrapped in the fixed display name), a request
without a reply-to gets the account address as reply-to, the default headers carry
the X-Sent-Via routing trace naming the sending account, and caller-supplied
headers are merged in with the caller winning on key collisions. -/
theorem C8_message_defaults (r : SendRequest) (a : Account)
    (hf : r.fromAddr = none) (hr : r.replyTo = none)
    (hh : ∀ p ∈ r.headers, p.1 ≠ "X-Sent-Via") :
    (buildMailOptions r a).sender = "\"Bowery Creative\" <" ++ a.email ++ ">" ∧
      (buildMailOptions r a).replyTo = some a.email ∧
      headerLookup (buildMailOptions r a).headers "X-Sent-Via" = some a.email ∧
      (∀ k v, headerLookup r.headers k = some v →
        headerLookup (buildMailOptions r a).headers k = some v) := by
  refine ⟨by simp [buildMailOptions, hf, jsOr], by simp [buildMailOptions, hr, jsOr], ?_, ?_⟩
  · unfold buildMailOptions headerLookup
    rw [List.reverse_append]
    rw [lookupAppend]
    have hrev : ∀ p ∈ r.headers.reverse, p.1 ≠ "X-Sent-Via" := by
      intro p hp
      exact hh p (List.mem_reverse.mp hp)
    rw [lookup_none_of_no_key hrev]
    simp [List.lookup]
  · intro k v hkv
    unfold buildMailOptions headerLookup
    rw [List.reverse_append, lookupAppend]
    unfold headerLookup at hkv
    rw [hkv]

/-- Witness for C8 with an empty caller header list. -/
theorem C8_message_defaults_witness :
    (buildMailOptions exReq exAcct).sender = "\"Bowery Creative\" <a@gmail.com>" ∧
      (buildMailOptions exReq exAcct).replyTo = some "a@gmail.com" ∧
      headerLookup (buildMailOptions exReq exAcct).headers "X-Sent-Via" = some "a@gmail.com" := by
  have h := C8_message_defaults exReq exAcct rfl rfl (by simp [exReq])
  exact ⟨h.1, h.2.1, h.2.2.1⟩

/-! ### Quota invariant (claim C1) -/

/-- Accounts agreeing on an address agree on the daily limit. Any pool built by
`initAccounts` satisfies this, because the limit there is a function of the
address alone. -/
def Coherent (accounts : List Account) : Prop :=
  ∀ a ∈ accounts, ∀ b ∈ accounts, a.email = b.email → a.dailyLimit = b.dailyLimit

/-- Every account's tracked daily count is within its daily limit. -/
def QuotaInv (s : OState) : Prop :=
  ∀ a ∈ s.accounts, s.dailySendCounts a.email ≤ a.dailyLimit

theorem dispatch_snd (s : OState) (r : SendRequest) (tr : Transport) (k : Bool) :
    (dispatch s r tr k).2 = (dispatchTry s r tr k).2 := by
  unfold dispatch
  rcases h : dispatchTry s r tr k with ⟨res, s1⟩
  cases res <;> simp [logEmail_ok]

theorem sendViaPostal_snd (s : OState) (r : SendRequest) (tr : Transport) (k : Bool) :
    (sendViaPostal s r tr k).2 = s := by
  unfold sendViaPostal
  by_cases h : s.postalEnabled = false
  · rw [if_pos h]
  · rw [if_neg h]
    cases htr : tr (buildPostalOptions r) <;> simp [htr, logEmail_ok]

theorem poolSend_snd (s : OState) (r : SendRequest) (a : Account) (i : Nat) (tr : Transport)
    (k : Bool) :
    (poolSend s r a i tr k).2 =
      match tr (buildMailOptions r a) with
      | Except.error _ => { s with currentAccountIndex := i }
      | Except.ok _ =>
        { s with dailySendCounts := setCount s.dailySendCounts a.email (s.dailySendCounts a.email + 1),
                 currentAccountIndex := (i + 1) % s.accounts.length } := by
  unfold poolSend
  cases htr : tr (buildMailOptions r a) <;> simp [htr, logEmail_ok]

theorem poolSend_fst (s : OState) (r : SendRequest) (a : Account) (i : Nat) (tr : Transport)
    (k : Bool) :
    (poolSend s r a i tr k).1 =
      match tr (buildMailOptions r a) with
      | Except.error e => Except.error e
      | Except.ok mid =>
        Except.ok { success := true, messageId := mid, sentBy := a.email,
                    remainingToday :=
                      Remaining.finite (a.dailyLimit - (s.dailySendCounts a.email + 1)) } := by
  unfold poolSend
  cases htr : tr (buildMailOptions r a) <;> simp [htr, logEmail_ok, setCount]

theorem dispatchTry_snd (s : OState) (r : SendRequest) (tr : Transport) (k : Bool) :
    (dispatchTry s r tr k).2 =
      if (r.usePostal && s.postalEnabled) = true then s
      else
        match getNextAccount s with
        | (none, i) => { s with currentAccountIndex := i }
        | (some a, i) => (poolSend s r a i tr k).2 := by
  unfold dispatchTry
  by_cases hb : (r.usePostal && s.postalEnabled) = true
  · rw [if_pos hb, if_pos hb]
    exact sendViaPostal_snd s r tr k
  · rw [if_neg hb, if_neg hb]
    rcases hga : getNextAccount s with ⟨opt, i⟩
    cases opt with
    | none =>
      by_cases hp : s.postalEnabled = true
      · simp only [if_pos hp]
        exact sendViaPostal_snd _ r tr k
      · simp only [if_neg hp]
    | some a => rfl

theorem dispatch_step_quota (s : OState) (r : SendRequest) (tr : Transport) (k : Bool)
    (hc : Coherent s.accounts) (hq : QuotaInv s) :
    QuotaInv (dispatch s r tr k).2 ∧ (dispatch s r tr k).2.accounts = s.accounts ∧
      (dispatch s r tr k).2.postalEnabled = s.postalEnabled := by
  rw [dispatch_snd, dispatchTry_snd]
  by_cases hb : (r.usePostal && s.postalEnabled) = true
  · rw [if_pos hb]; exact ⟨hq, rfl, rfl⟩
  · rw [if_neg hb]
    rcases hga : getNextAccount s with ⟨opt, i⟩
    cases opt with
    | none => exact ⟨fun a ha => hq a ha, rfl, rfl⟩
    | some a =>
      show QuotaInv (poolSend s r a i tr k).2 ∧
        (poolSend s r a i tr k).2.accounts = s.accounts ∧
        (poolSend s r a i tr k).2.postalEnabled = s.postalEnabled
      rw [poolSend_snd]
      obtain ⟨hamem, hlt, _⟩ := getNextAccount_some hga
      cases htr : tr (buildMailOptions r a) with
      | error e => exact ⟨fun b hb2 => hq b hb2, rfl, rfl⟩
      | ok mid =>
        refine ⟨?_, rfl, rfl⟩
        intro b hb2
        show setCount s.dailySendCounts a.email (s.dailySendCounts a.email + 1) b.email ≤ b.dailyLimit
        unfold setCount
        by_cases he : b.email = a.email
        · rw [if_pos he]
          have hlim : a.dailyLimit = b.dailyLimit := hc a hamem b hb2 (he.symm)
          omega
        · rw [if_neg he]
          exact hq b hb2

theorem runDispatches_quota (calls : List DispatchCall) :
    ∀ s : OState, Coherent s.accounts → QuotaInv s → QuotaInv (runDispatches s calls) := by
  induction calls with
  | nil => intro s _ hq; exact hq
  | cons c t ih =>
    intro s hc hq
    have hstep := dispatch_step_quota s c.req c.tr c.sinkOk hc hq
    have hrun : runDispatches s (c :: t) = runDispatches (dispatch s c.req c.tr c.sinkOk).2 t := rfl
    rw [hrun]
    refine ih _ ?_ hstep.1
    rw [hstep.2.1]
    exact hc

/-- C1: over any pool-only dispatch trace (relay disabled) from a coherent state
satisfying the quota invariant, the invariant `sentToday ≤ dailyLimit` holds after
every prefix of the trace (the lower bound `0 ≤ sentToday` is inherent in the
natural-number embedding of the counter); moreover a send is admitted only to an
account with a strictly positive remaining quota, and a dispatch that selects an
account increments exactly that account's counter by exactly one on a successful
send and leaves every counter untouched on a transport failure. -/
theorem C1_quota_invariant (s : OState) (calls : List DispatchCall)
    (hpool : s.postalEnabled = false) (hc : Coherent s.accounts) (hq : QuotaInv s) :
    (∀ n, QuotaInv (runDispatches s (calls.take n))) ∧
      (∀ a i, getNextAccount s = (some a, i) → s.dailySendCounts a.email < a.dailyLimit) ∧
      (∀ (r : SendRequest) (tr : Transport) (k : Bool) a i, getNextAccount s = (some a, i) →
        (∀ res, (dispatch s r tr k).1 = Except.ok res →
          (dispatch s r tr k).2.dailySendCounts a.email = s.dailySendCounts a.email + 1 ∧
            ∀ e2, e2 ≠ a.email →
              (dispatch s r tr k).2.dailySendCounts e2 = s.dailySendCounts e2) ∧
        (∀ e, (dispatch s r tr k).1 = Except.error e →
          (dispatch s r tr k).2.dailySendCounts = s.dailySendCounts)) := by
  refine ⟨fun n => runDispatches_quota (calls.take n) s hc hq, ?_, ?_⟩
  · intro a i hga
    exact (getNextAccount_some hga).2.1
  · intro r tr k a i hga
    have hb : (r.usePostal && s.postalEnabled) = false := by rw [hpool]; simp
    have hTryEq : dispatchTry s r tr k = poolSend s r a i tr k := by
      unfold dispatchTry
      simp only [hb, Bool.false_eq_true, if_false, hga]
    have h1 : (dispatch s r tr k).1 = (poolSend s r a i tr k).1 := by rw [dispatch_fst, hTryEq]
    have h2 : (dispatch s r tr k).2 = (poolSend s r a i tr k).2 := by rw [dispatch_snd, hTryEq]
    cases htr : tr (buildMailOptions r a) with
    | error e0 =>
      constructor
      · intro res hres
        rw [h1, poolSend_fst, htr] at hres
        exact absurd hres (by simp)
      · intro e he
        rw [h2, poolSend_snd, htr]
    | ok mid =>
      constructor
      · intro res _
        rw [h2, poolSend_snd, htr]
        constructor
        · simp [setCount]
        · intro e2 he2
          simp [setCount, he2]
      · intro e he
        rw [h1, poolSend_fst, htr] at he
        exact absurd he (by simp)

def exCalls : List DispatchCall :=
  [{ req := exReq, tr := exTrOk, sinkOk := true }, { req := exReq, tr := exTrFail, sinkOk := false }]

/-- Witness for C1 on a concrete two-account pool and a two-call trace. -/
theorem C1_quota_invariant_witness : QuotaInv (runDispatches exState (exCalls.take 2)) := by
  have hcoh : Coherent exState.accounts := by
    have h : ∀ x ∈ exState.accounts, x.dailyLimit = 2 := by
      intro x hx
      have hor : x = exAcct ∨ x = exAcctB := by simpa [exState] using hx
      rcases hor with rfl | rfl <;> rfl
    intro a ha b hb _
    rw [h a ha, h b hb]
  have hq : QuotaInv exState := fun a _ => Nat.zero_le _
  exact (C1_quota_invariant exState exCalls rfl hcoh hq).1 2

/-! ### Bulk sequencing (claim C4) -/

theorem sendBulkAux_length (d total : Nat) :
    ∀ (rest : List DispatchCall) (s : OState) (index : Nat),
      (sendBulkAux d total s rest index).1.length = rest.length := by
  intro rest
  induction rest with
  | nil => intro s index; rfl
  | cons c t ih =>
    intro s index
    unfold sendBulkAux
    rcases hd : dispatch s c.req c.tr c.sinkOk with ⟨res, s1⟩
    cases res <;> simp [ih]

theorem sendBulkAux_spec (d total : Nat) :
    ∀ (rest : List DispatchCall) (s : OState) (index : Nat),
      (sendBulkAux d total s rest index).1.map BulkOutcome.idx = List.range' index rest.length ∧
        (index + rest.length = total →
          ((0 < d → (sendBulkAux d total s rest index).2.1 =
              List.countP BulkOutcome.isOk (sendBulkAux d total s rest index).1.dropLast) ∧
            (d = 0 → (sendBulkAux d total s rest index).2.1 = 0))) := by
  intro rest
  induction rest with
  | nil =>
    intro s index
    exact ⟨rfl, fun _ => ⟨fun _ => rfl, fun _ => rfl⟩⟩
  | cons c t ih =>
    intro s index
    unfold sendBulkAux
    rcases hd : dispatch s c.req c.tr c.sinkOk with ⟨res, s1⟩
    have iht := ih s1 (index + 1)
    have hlen1 := sendBulkAux_length d total t s1 (index + 1)
    cases res with
    | ok r0 =>
      refine ⟨?_, ?_⟩
      · simp only [List.map_cons, BulkOutcome.idx, iht.1, List.length_cons]
        rw [List.range'_succ]
      · intro htot
        simp only [List.length_cons] at htot
        have iht2 := iht.2 (by omega)
        refine ⟨?_, ?_⟩
        · intro hdpos
          have hxs := iht2.1 hdpos
          cases t with
          | nil =>
            have hcond : ¬ (index < total - 1 ∧ 0 < d) := by
              simp only [List.length_nil] at htot
              omega
            simp [sendBulkAux, if_neg hcond]
          | cons c2 t2 =>
            have hcond : index < total - 1 ∧ 0 < d := by
              simp only [List.length_cons] at htot
              exact ⟨by omega, hdpos⟩
            rcases ht : (sendBulkAux d total s1 (c2 :: t2) (index + 1)).1 with _ | ⟨x, xs⟩
            · rw [ht] at hlen1; simp at hlen1
            · rw [ht] at hxs
              simp only [ht, if_pos hcond, List.dropLast_cons₂, List.countP_cons]
              simp [BulkOutcome.isOk, hxs]
              omega
        · intro hd0
          have hcond : ¬ (index < total - 1 ∧ 0 < d) := by omega
          simp [if_neg hcond, iht2.2 hd0]
    | error e =>
      refine ⟨?_, ?_⟩
      · simp only [List.map_cons, BulkOutcome.idx, iht.1, List.length_cons]
        rw [List.range'_succ]
      · intro htot
        simp only [List.length_cons] at htot
        have iht2 := iht.2 (by omega)
        refine ⟨?_, ?_⟩
        · intro hdpos
          have hxs := iht2.1 hdpos
          cases t with
          | nil => simp [sendBulkAux]
          | cons c2 t2 =>
            rcases ht : (sendBulkAux d total s1 (c2 :: t2) (index + 1)).1 with _ | ⟨x, xs⟩
            · rw [ht] at hlen1; simp at hlen1
            · rw [ht] at hxs
              simp only [ht, List.dropLast_cons₂, List.countP_cons]
              simp only [BulkOutcome.isOk, hxs]
              simp
        · intro hd0
          exact iht2.2 hd0

/-- C4 (amended): `sendBulk` returns exactly one outcome per input request, in input
order, each carrying its originating index (a failed item is captured and does not
abort the sequence); the inter-message delay is performed only after a successfully
sent non-final item — it is skipped after the final item and after failed items —
and a zero delay performs no waits at all. -/
theorem C4_bulk_amended (s : OState) (items : List DispatchCall) (d : Nat) :
    (sendBulk s items d).1.map BulkOutcome.idx = List.range items.length ∧
      (0 < d → (sendBulk s items d).2.1 =
        List.countP BulkOutcome.isOk (sendBulk s items d).1.dropLast) ∧
      (d = 0 → (sendBulk s items d).2.1 = 0) := by
  have h := sendBulkAux_spec d items.length items s 0
  refine ⟨?_, (h.2 (by simp)).1, (h.2 (by simp)).2⟩
  rw [show sendBulk s items d = sendBulkAux d items.length s items 0 from rfl, h.1]
  exact (List.range_eq_range' items.length).symm

/-- Witness for C4 on a concrete two-item batch with one success and one failure. -/
theorem C4_bulk_amended_witness :
    (sendBulk exState exCalls 5000).1.map BulkOutcome.idx = List.range 2 ∧
      (sendBulk exState exCalls 5000).2.1 =
        List.countP BulkOutcome.isOk (sendBulk exState exCalls 5000).1.dropLast := by
  have h := C4_bulk_amended exState exCalls 5000
  exact ⟨h.1, h.2.1 (by omega)⟩

def exCallsFailFirst : List DispatchCall :=
  [{ req := exReq, tr := exTrFail, sinkOk := true }, { req := exReq, tr := exTrOk, sinkOk := true }]

/-- Counterexample to C4 as stated: with a positive delay and a failing non-final
first item the sequencer performs zero inter-message delays — the failed item is
followed immediately by the next one — while the claim prescribes the delay
between the two items (one delay). -/
theorem C4_counterexample :
    (sendBulk exState exCallsFailFirst 5000).1.map BulkOutcome.isOk = [false, true] ∧
      (sendBulk exState exCallsFailFirst 5000).2.1 = 0 ∧
      ¬ (sendBulk exState exCallsFailFirst 5000).2.1 = 1 := by
  decide

/-! ### Daily quota assignment at load time (claim C6) -/

theorem initAccountsAux_quota (env : String → Option String) :
    ∀ (fuel i : Nat), ∀ a ∈ initAccountsAux env fuel i,
      a.isWorkspace = !(jsEndsWith a.email ("@gmail.com")) ∧
        a.dailyLimit = if jsEndsWith a.email ("@gmail.com") then 500 else 2000 := by
  intro fuel
  induction fuel with
  | zero => intro i a ha; simp [initAccountsAux] at ha
  | succ n ih =>
    intro i a ha
    simp only [initAccountsAux] at ha
    by_cases ht : jsTruthy (env ("GMAIL_EMAIL_" ++ toString i)) = true
    · rw [if_pos ht] at ha
      cases he : env ("GMAIL_EMAIL_" ++ toString i) with
      | none => rw [he] at ha; exact ih _ a ha
      | some email =>
        rw [he] at ha
        dsimp only at ha
        by_cases hp : jsTruthy (env ("GMAIL_APP_PASSWORD_" ++ toString i)) = true
        · rw [if_pos hp] at ha
          rcases List.mem_cons.mp ha with rfl | ha2
          · unfold mkAccount
            by_cases hw : jsEndsWith email ("@gmail.com") <;> simp [hw]
          · exact ih _ a ha2
        · rw [if_neg hp] at ha
          exact ih _ a ha
    · rw [if_neg ht] at ha
      simp at ha

/-- C6 (amended): at load time every account whose address ends in `@gmail.com` is
classified non-workspace and assigned the lower limit 500, and every other account
is classified workspace and assigned 2000; the two limits are fixed constants of
the loader — the assignment depends on nothing but the account's address, so no
per-account configuration can override it. -/
theorem C6_quota_rule (env : String → Option String) (fuel : Nat) :
    ∀ a ∈ initAccounts env fuel,
      a.isWorkspace = !(jsEndsWith a.email ("@gmail.com")) ∧
        a.dailyLimit = if jsEndsWith a.email ("@gmail.com") then 500 else 2000 :=
  fun a ha => initAccountsAux_quota env fuel 1 a ha

def envPlain : String → Option String := fun k =>
  if k = "GMAIL_EMAIL_1" then some "a@gmail.com"
  else if k = "GMAIL_APP_PASSWORD_1" then some "pw"
  else if k = "GMAIL_EMAIL_2" then some "b@corp.com"
  else if k = "GMAIL_APP_PASSWORD_2" then some "pw2"
  else none

/-- Witness for C6's amended statement on a concrete two-account environment. -/
theorem C6_quota_rule_witness :
    (mkAccount "b@corp.com").isWorkspace = !(jsEndsWith ("b@corp.com") ("@gmail.com")) ∧
      (mkAccount "b@corp.com").dailyLimit =
        if jsEndsWith ("b@corp.com") ("@gmail.com") then 500 else 2000 := by
  have hmem : mkAccount "b@corp.com" ∈ initAccounts envPlain 5 := by decide
  exact C6_quota_rule envPlain 5 (mkAccount "b@corp.com") hmem

def envOverride : String → Option String := fun k =>
  if k = "GMAIL_EMAIL_1" then some "a@gmail.com"
  else if k = "GMAIL_APP_PASSWORD_1" then some "pw"
  else if k = "GMAIL_DAILY_LIMIT_1" then some "9999"
  else if k = "EMAIL_QUOTA_OVERRIDE_1" then some "9999"
  else none

/-- Counterexample to C6 as stated: the loader ignores per-account quota
configuration entirely — with explicit override variables present in the
environment, the gmail.com account still receives the hardcoded 500 rather than
the configured 9999 — so the quota split is a hardcoded constant of the loader,
not an overridable configuration rule. -/
theorem C6_counterexample :
    (initAccounts envOverride 5).map Account.dailyLimit = [500] ∧ (500 : Nat) ≠ 9999 := by
  decide

/-! ### Campaign templating (claim C5) -/

/-- Characters of the string are neither opening nor closing braces. -/
@[reducible] def braceFree (s : String) : Prop := ∀ c ∈ s.data, c ≠ '{' ∧ c ≠ '}'

/-- A nonempty string of JavaScript word characters, the shape of a key the
subject regex can match and of a key whose body pattern is a regex literal. -/
@[reducible] def wordString (s : String) : Prop := s.data ≠ [] ∧ ∀ c ∈ s.data, isWordChar c = true

/-- A field value that introduces no placeholder or replacement-pattern syntax of
its own: no braces and no dollar sign. -/
@[reducible] def plainVal (s : String) : Prop := ∀ c ∈ s.data, c ≠ '{' ∧ c ≠ '}' ∧ c ≠ '$'

theorem wordChar_ne_lbrace {c : Char} (h : isWordChar c = true) : c ≠ '{' := by
  intro he; subst he; exact absurd h (by decide)

theorem wordChar_ne_rbrace {c : Char} (h : isWordChar c = true) : c ≠ '}' := by
  intro he; subst he; exact absurd h (by decide)

theorem stringDataAppend (s t : String) : (s ++ t).data = s.data ++ t.data := rfl

theorem stringMkData (s : String) : String.mk s.data = s := rfl

theorem stringDataInj {s t : String} (h : s.data = t.data) : s = t :=
  congrArg String.mk h

theorem phData (key : String) : (ph key).data = '{' :: '{' :: (key.data ++ ['}', '}']) := by
  show ("\x7b\x7b" ++ key ++ "\x7d\x7d").data = _
  rw [stringDataAppend, stringDataAppend]
  rw [List.append_assoc]
  rfl

theorem renderSubjectAux_nil (fields : List (String × String)) :
    ∀ f, renderSubjectAux fields f [] = [] := by
  intro f; cases f <;> rfl

theorem renderSubjectAux_cons_ne (fields : List (String × String)) (f : Nat) (c : Char)
    (rest : List Char) (hc : c ≠ '{') :
    renderSubjectAux fields (f + 1) (c :: rest) = c :: renderSubjectAux fields f rest := by
  simp [renderSubjectAux, hc]

theorem takeWhile_word_append (w : List Char) (hw : ∀ c ∈ w, isWordChar c = true)
    (d : Char) (hd : isWordChar d = false) (t : List Char) :
    (w ++ d :: t).takeWhile isWordChar = w ∧ (w ++ d :: t).dropWhile isWordChar = d :: t := by
  induction w with
  | nil =>
    constructor
    · simp [List.takeWhile_cons, hd]
    · simp [List.dropWhile_cons, hd]
  | cons c cs ih =>
    have hc : isWordChar c = true := hw c (List.mem_cons_self _ _)
    have iht := ih (fun x hx => hw x (List.mem_cons_of_mem _ hx))
    constructor
    · simp [List.takeWhile_cons, hc, iht.1]
    · simp [List.dropWhile_cons, hc, iht.2]

theorem afterKey_rr (rest : List Char) : afterKey ('}' :: '}' :: rest) = some rest := by
  simp [afterKey]

theorem afterKey_some {l r : List Char} (h : afterKey l = some r) : l = '}' :: '}' :: r := by
  unfold afterKey at h
  split at h
  · next d1 d2 rest =>
    split at h
    · next hd =>
      obtain ⟨h1, h2⟩ := hd
      subst h1; subst h2
      injection h with h
      rw [h]
    · exact absurd h (by simp)
  · exact absurd h (by simp)

theorem renderSubjectAux_placeholder (fields : List (String × String)) (f : Nat)
    (key : String) (post : List Char)
    (hne : key.data ≠ []) (hword : ∀ c ∈ key.data, isWordChar c = true) :
    renderSubjectAux fields (f + 1) ('{' :: '{' :: (key.data ++ '}' :: '}' :: post)) =
      (subjRep fields key).data ++ renderSubjectAux fields f post := by
  have hsp := takeWhile_word_append key.data hword '}' (by decide) ('}' :: post)
  conv_lhs => unfold renderSubjectAux
  rw [if_pos rfl]
  dsimp only
  rw [if_pos rfl]
  rw [hsp.1, hsp.2, afterKey_rr]
  dsimp only
  rw [if_neg hne, stringMkData]

theorem renderSubjectAux_cons (fields : List (String × String)) (f : Nat) (c : Char)
    (rest : List Char) :
    renderSubjectAux fields (f + 1) (c :: rest) =
      if c = '{' then
        match rest with
        | c2 :: rest2 =>
          if c2 = '{' then
            match afterKey (rest2.dropWhile isWordChar) with
            | some rest4 =>
              if rest2.takeWhile isWordChar = [] then c :: renderSubjectAux fields f rest
              else (subjRep fields (String.mk (rest2.takeWhile isWordChar))).data ++
                renderSubjectAux fields f rest4
            | none => c :: renderSubjectAux fields f rest
          else c :: renderSubjectAux fields f rest
        | [] => c :: renderSubjectAux fields f rest
      else c :: renderSubjectAux fields f rest := by
  conv_lhs => unfold renderSubjectAux

theorem dropWhile_length_le (p : Char → Bool) : ∀ l : List Char, (l.dropWhile p).length ≤ l.length := by
  intro l
  induction l with
  | nil => simp
  | cons c cs ih =>
    by_cases h : p c
    · rw [List.dropWhile_cons_of_pos h]
      simp
      omega
    · rw [List.dropWhile_cons_of_neg h]

theorem renderSubjectAux_stable (fields : List (String × String)) :
    ∀ f1 (l : List Char) (f2 : Nat), l.length ≤ f1 → l.length ≤ f2 →
      renderSubjectAux fields f1 l = renderSubjectAux fields f2 l := by
  intro f1
  induction f1 with
  | zero =>
    intro l f2 h1 _
    have hl : l = [] := List.length_eq_zero.mp (Nat.le_zero.mp h1)
    subst hl
    rw [renderSubjectAux_nil, renderSubjectAux_nil]
  | succ n ih =>
    intro l f2 h1 h2
    cases l with
    | nil => rw [renderSubjectAux_nil, renderSubjectAux_nil]
    | cons c rest =>
      cases f2 with
      | zero => simp at h2
      | succ m =>
        have hrest1 : rest.length ≤ n := by simp at h1; omega
        have hrest2 : rest.length ≤ m := by simp at h2; omega
        rw [renderSubjectAux_cons, renderSubjectAux_cons]
        by_cases hc : c = '{'
        · rw [if_pos hc, if_pos hc]
          cases rest with
          | nil => rw [renderSubjectAux_nil, renderSubjectAux_nil]
          | cons c2 rest2 =>
            dsimp only
            by_cases hc2 : c2 = '{'
            · rw [if_pos hc2, if_pos hc2]
              cases haf : afterKey (rest2.dropWhile isWordChar) with
              | none =>
                dsimp only
                rw [ih _ m hrest1 hrest2]
              | some rest4 =>
                dsimp only
                by_cases hw : rest2.takeWhile isWordChar = []
                · rw [if_pos hw, if_pos hw, ih _ m hrest1 hrest2]
                · rw [if_neg hw, if_neg hw]
                  have hd := afterKey_some haf
                  have hle := dropWhile_length_le isWordChar rest2
                  rw [hd] at hle
                  have h4n : rest4.length ≤ n := by
                    simp at hle hrest1
                    omega
                  have h4m : rest4.length ≤ m := by
                    simp at hle hrest2
                    omega
                  rw [ih rest4 m h4n h4m]
            · rw [if_neg hc2, if_neg hc2, ih _ m hrest1 hrest2]
        · rw [if_neg hc, if_neg hc, ih _ m hrest1 hrest2]

theorem renderSubjectAux_peel (fields : List (String × String)) :
    ∀ (pre : List Char), (∀ c ∈ pre, c ≠ '{') → ∀ (f : Nat) (B : List Char),
      (pre ++ B).length ≤ f →
      renderSubjectAux fields f (pre ++ B) =
        pre ++ renderSubjectAux fields (f - pre.length) B := by
  intro pre
  induction pre with
  | nil =>
    intro _ f B h
    simp
  | cons c p ih =>
    intro hpre f B h
    cases f with
    | zero => simp at h
    | succ m =>
      have hc : c ≠ '{' := (hpre c (List.mem_cons_self _ _))
      rw [show ((c :: p) ++ B) = c :: (p ++ B) from rfl]
      rw [renderSubjectAux_cons_ne fields m c _ hc]
      rw [ih (fun x hx => hpre x (List.mem_cons_of_mem _ hx)) m B (by simp at h ⊢; omega)]
      simp [Nat.succ_sub_succ]

/-- The subject scanner splits around a well-formed placeholder: brace-free text
before it is copied verbatim, the placeholder is replaced according to the
truthiness callback, and scanning continues after it. -/
theorem renderSubject_decomp (fields : List (String × String)) (pre key post : String)
    (hpre : braceFree pre) (hkey : wordString key) :
    renderSubject fields (pre ++ ph key ++ post) =
      pre ++ subjRep fields key ++ renderSubject fields post := by
  unfold renderSubject
  have hdata : (pre ++ ph key ++ post).data
      = pre.data ++ ('{' :: '{' :: (key.data ++ '}' :: '}' :: post.data)) := by
    rw [stringDataAppend, stringDataAppend, phData, List.append_assoc, List.cons_append,
      List.cons_append, List.append_assoc]
    rfl
  rw [hdata]
  have hpre2 : ∀ c ∈ pre.data, c ≠ '{' := fun c hc => (hpre c hc).1
  rw [renderSubjectAux_peel fields pre.data hpre2 _ _ (by simp)]
  have hflen : (pre.data ++ ('{' :: '{' :: (key.data ++ '}' :: '}' :: post.data))).length
      - pre.data.length = (key.data.length + post.data.length + 3) + 1 := by
    simp
    omega
  rw [hflen]
  rw [renderSubjectAux_placeholder fields _ key post.data hkey.1 hkey.2]
  rw [renderSubjectAux_stable fields (key.data.length + post.data.length + 3) post.data
    post.data.length (by omega) (Nat.le_refl _)]
  apply stringDataInj
  show pre.data ++ ((subjRep fields key).data ++ renderSubjectAux fields post.data.length post.data)
      = (pre ++ subjRep fields key ++ renderSubject fields post).data
  rw [stringDataAppend, stringDataAppend]
  rw [List.append_assoc]
  rfl

theorem replaceAllAux_nil (pat repl : List Char) : ∀ f, replaceAllAux pat repl f [] = [] := by
  intro f; cases f <;> rfl

theorem leadsWith_append_self : ∀ (l t : List Char), leadsWith l (l ++ t) = true := by
  intro l
  induction l with
  | nil => intro t; rfl
  | cons c cs ih => intro t; simp [leadsWith, ih]

theorem leadsWith_head_ne {p c : Char} (h : p ≠ c) (ps cs : List Char) :
    leadsWith (p :: ps) (c :: cs) = false := by
  have hb : (p == c) = false := beq_eq_false_iff_ne.mpr h
  simp [leadsWith, hb]

theorem replaceAllAux_cons (pat repl : List Char) (f : Nat) (c : Char) (rest : List Char) :
    replaceAllAux pat repl (f + 1) (c :: rest) =
      if leadsWith pat (c :: rest) then
        repl ++ replaceAllAux pat repl f (List.drop pat.length (c :: rest))
      else c :: replaceAllAux pat repl f rest := by
  conv_lhs => unfold replaceAllAux

theorem replaceAllAux_stable (pat repl : List Char) (hpat : pat ≠ []) :
    ∀ f1 (l : List Char) (f2 : Nat), l.length ≤ f1 → l.length ≤ f2 →
      replaceAllAux pat repl f1 l = replaceAllAux pat repl f2 l := by
  intro f1
  induction f1 with
  | zero =>
    intro l f2 h1 _
    have hl : l = [] := List.length_eq_zero.mp (Nat.le_zero.mp h1)
    subst hl
    rw [replaceAllAux_nil, replaceAllAux_nil]
  | succ n ih =>
    intro l f2 h1 h2
    cases l with
    | nil => rw [replaceAllAux_nil, replaceAllAux_nil]
    | cons c rest =>
      cases f2 with
      | zero => simp at h2
      | succ m =>
        rw [replaceAllAux_cons, replaceAllAux_cons]
        have hplen : 1 ≤ pat.length := by
          cases pat with
          | nil => exact absurd rfl hpat
          | cons _ _ => simp
        by_cases hm : leadsWith pat (c :: rest) = true
        · rw [if_pos hm, if_pos hm]
          have hdl : (List.drop pat.length (c :: rest)).length ≤ n := by
            rw [List.length_drop]
            simp at h1 ⊢
            omega
          have hdm : (List.drop pat.length (c :: rest)).length ≤ m := by
            rw [List.length_drop]
            simp at h2 ⊢
            omega
          rw [ih _ m hdl hdm]
        · rw [if_neg hm, if_neg hm]
          have hr1 : rest.length ≤ n := by simp at h1; omega
          have hr2 : rest.length ≤ m := by simp at h2; omega
          rw [ih _ m hr1 hr2]

theorem replaceAllAux_peel (pat repl : List Char) (pt : List Char) (hpat : pat = '{' :: pt) :
    ∀ (pre : List Char), (∀ c ∈ pre, c ≠ '{') → ∀ (f : Nat) (B : List Char),
      (pre ++ B).length ≤ f →
      replaceAllAux pat repl f (pre ++ B) =
        pre ++ replaceAllAux pat repl (f - pre.length) B := by
  intro pre
  induction pre with
  | nil => intro _ f B h; simp
  | cons c p ih =>
    intro hpre f B h
    cases f with
    | zero => simp at h
    | succ m =>
      have hc : '{' ≠ c := fun he => (hpre c (List.mem_cons_self _ _)) he.symm
      rw [show ((c :: p) ++ B) = c :: (p ++ B) from rfl]
      rw [replaceAllAux_cons]
      rw [hpat, leadsWith_head_ne hc, if_neg (by simp)]
      rw [← hpat]
      rw [ih (fun x hx => hpre x (List.mem_cons_of_mem _ hx)) m B (by simp at h ⊢; omega)]
      simp [Nat.succ_sub_succ]

theorem replaceAllAux_match (pat repl : List Char) (hpat : pat ≠ []) (f : Nat) (B : List Char)
    (hf : (pat ++ B).length ≤ f) :
    replaceAllAux pat repl f (pat ++ B) = repl ++ replaceAllAux pat repl B.length B := by
  cases pat with
  | nil => exact absurd rfl hpat
  | cons p pt =>
    cases f with
    | zero => simp at hf
    | succ m =>
      rw [show ((p :: pt) ++ B) = p :: (pt ++ B) from rfl]
      rw [replaceAllAux_cons]
      rw [show (p :: (pt ++ B)) = (p :: pt) ++ B from rfl]
      rw [leadsWith_append_self, if_pos rfl]
      rw [List.drop_left]
      rw [replaceAllAux_stable (p :: pt) repl hpat m B B.length
        (by simp at hf ⊢; omega) (Nat.le_refl _)]

theorem leadsWith_word_ne : ∀ (a : List Char), ∀ (b : List Char),
    (∀ c ∈ a, isWordChar c = true) → (∀ c ∈ b, isWordChar c = true) → a ≠ b →
    ∀ t, leadsWith (a ++ ['}', '}']) (b ++ '}' :: '}' :: t) = false := by
  intro a
  induction a with
  | nil =>
    intro b _ hb hne t
    cases b with
    | nil => exact absurd rfl hne
    | cons q bs =>
      have hq : isWordChar q = true := hb q (List.mem_cons_self _ _)
      exact leadsWith_head_ne (fun he => wordChar_ne_rbrace hq he.symm) _ _
  | cons p ps ih =>
    intro b ha hb hne t
    cases b with
    | nil =>
      have hp : isWordChar p = true := ha p (List.mem_cons_self _ _)
      exact leadsWith_head_ne (wordChar_ne_rbrace hp) _ _
    | cons q bs =>
      by_cases hpq : p = q
      · subst hpq
        have hne2 : ps ≠ bs := fun he => hne (by rw [he])
        have hstep := ih bs (fun x hx => ha x (List.mem_cons_of_mem _ hx))
          (fun x hx => hb x (List.mem_cons_of_mem _ hx)) hne2 t
        show leadsWith ((p :: ps) ++ ['}', '}']) ((p :: bs) ++ '}' :: '}' :: t) = false
        rw [show ((p :: ps) ++ ['}', '}']) = p :: (ps ++ ['}', '}']) from rfl]
        rw [show ((p :: bs) ++ '}' :: '}' :: t) = p :: (bs ++ '}' :: '}' :: t) from rfl]
        simp [leadsWith, hstep]
      · exact leadsWith_head_ne hpq _ _

theorem replaceAllAux_skip_ph (ki key : String) (vrepl : List Char)
    (hki : wordString ki) (hkey : wordString key) (hne : ki ≠ key) :
    ∀ (f : Nat) (Q : List Char), ((ph key).data ++ Q).length ≤ f →
      replaceAllAux (ph ki).data vrepl f ((ph key).data ++ Q) =
        (ph key).data ++ replaceAllAux (ph ki).data vrepl Q.length Q := by
  intro f Q hf
  have hpkey : (ph key).data = '{' :: '{' :: (key.data ++ ['}', '}']) := phData key
  have hpki : (ph ki).data = '{' :: '{' :: (ki.data ++ ['}', '}']) := phData ki
  have hshape : (ph key).data ++ Q = '{' :: '{' :: ((key.data ++ ['}', '}']) ++ Q) := by
    rw [hpkey]; rfl
  have hlen : key.data.length + Q.length + 4 ≤ f := by
    rw [hpkey] at hf
    simp at hf
    rw [show key.data.length = key.length from rfl]
    omega
  obtain ⟨f2, rfl⟩ : ∃ f2, f = f2 + 2 := ⟨f - 2, by omega⟩
  rw [hshape]
  have h1 : ¬ leadsWith (ph ki).data ('{' :: '{' :: ((key.data ++ ['}', '}']) ++ Q)) = true := by
    have harr : (key.data ++ ['}', '}']) ++ Q = key.data ++ '}' :: '}' :: Q := by
      rw [List.append_assoc]; rfl
    rw [hpki, harr]
    have hw := leadsWith_word_ne ki.data key.data hki.2 hkey.2
      (fun he => hne (stringDataInj he)) Q
    simp [leadsWith, hw]
  rw [show (f2 + 2) = (f2 + 1) + 1 from rfl]
  rw [replaceAllAux_cons, if_neg h1]
  obtain ⟨kc, kt, hkd⟩ : ∃ kc kt, key.data = kc :: kt := by
    cases hk : key.data with
    | nil => exact absurd hk hkey.1
    | cons kc kt => exact ⟨kc, kt, rfl⟩
  have h2 : ¬ leadsWith (ph ki).data ('{' :: ((key.data ++ ['}', '}']) ++ Q)) = true := by
    rw [hpki, hkd]
    rw [show ((kc :: kt) ++ ['}', '}']) ++ Q = kc :: ((kt ++ ['}', '}']) ++ Q) from rfl]
    have hkc : isWordChar kc = true := by
      apply hkey.2; rw [hkd]; exact List.mem_cons_self _ _
    have hlb : ('{' : Char) ≠ kc := fun he => wordChar_ne_lbrace hkc he.symm
    have hstep := leadsWith_head_ne hlb (ki.data ++ ['}', '}']) ((kt ++ ['}', '}']) ++ Q)
    simp [leadsWith, hstep]
    intro he
    exact absurd he hlb
  rw [replaceAllAux_cons, if_neg h2]
  have hnb : ∀ c ∈ key.data ++ ['}', '}'], c ≠ '{' := by
    intro c hc
    rcases List.mem_append.mp hc with h | h
    · exact wordChar_ne_lbrace (hkey.2 c h)
    · have hc2 : c = '}' := by simpa using h
      subst hc2; decide
  rw [replaceAllAux_peel (ph ki).data vrepl ('{' :: (ki.data ++ ['}', '}'])) hpki
    (key.data ++ ['}', '}']) hnb f2 Q (by simp at hlen ⊢; omega)]
  rw [replaceAllAux_stable (ph ki).data vrepl (by rw [hpki]; simp) _ Q Q.length
    (by simp at hlen ⊢; omega) (Nat.le_refl _)]
  rw [hpkey]
  rfl

theorem jsReplaceAll_append_left (X P pat repl : String) (hX : ∀ c ∈ X.data, c ≠ '{')
    (pt : List Char) (hpat : pat.data = '{' :: pt) :
    jsReplaceAll (X ++ P) pat repl = X ++ jsReplaceAll P pat repl := by
  unfold jsReplaceAll
  rw [stringDataAppend]
  rw [replaceAllAux_peel pat.data repl.data pt hpat X.data hX _ P.data (Nat.le_refl _)]
  rw [show (X.data ++ P.data).length - X.data.length = P.data.length by simp]
  rfl

theorem jsReplaceAll_match_str (pre key post v : String)
    (hpre : ∀ c ∈ pre.data, c ≠ '{') :
    jsReplaceAll (pre ++ ph key ++ post) (ph key) v =
      pre ++ v ++ jsReplaceAll post (ph key) v := by
  unfold jsReplaceAll
  have hdata : (pre ++ ph key ++ post).data = pre.data ++ ((ph key).data ++ post.data) := by
    rw [stringDataAppend, stringDataAppend, List.append_assoc]
  rw [hdata]
  rw [replaceAllAux_peel (ph key).data v.data ('{' :: (key.data ++ ['}', '}'])) (phData key)
    pre.data hpre _ _ (Nat.le_refl _)]
  rw [replaceAllAux_match (ph key).data v.data (by rw [phData]; simp) _ post.data (by simp)]
  apply stringDataInj
  show pre.data ++ (v.data ++ replaceAllAux (ph key).data v.data post.data.length post.data)
      = (pre ++ v ++ jsReplaceAll post (ph key) v).data
  rw [stringDataAppend, stringDataAppend, List.append_assoc]
  rfl

theorem jsReplaceAll_skip_str (pre key post ki v : String)
    (hpre : ∀ c ∈ pre.data, c ≠ '{') (hki : wordString ki) (hkey : wordString key)
    (hne : ki ≠ key) :
    jsReplaceAll (pre ++ ph key ++ post) (ph ki) v =
      pre ++ ph key ++ jsReplaceAll post (ph ki) v := by
  unfold jsReplaceAll
  have hdata : (pre ++ ph key ++ post).data = pre.data ++ ((ph key).data ++ post.data) := by
    rw [stringDataAppend, stringDataAppend, List.append_assoc]
  rw [hdata]
  rw [replaceAllAux_peel (ph ki).data v.data ('{' :: (ki.data ++ ['}', '}'])) (phData ki)
    pre.data hpre _ _ (Nat.le_refl _)]
  rw [replaceAllAux_skip_ph ki key v.data hki hkey hne _ post.data (by simp)]
  apply stringDataInj
  show pre.data ++ ((ph key).data ++ replaceAllAux (ph ki).data v.data post.data.length post.data)
      = (pre ++ ph key ++ jsReplaceAll post (ph ki) v).data
  rw [stringDataAppend, stringDataAppend, List.append_assoc]
  rfl

theorem renderBody_append_left (fields : List (String × String)) :
    ∀ (X P : String), (∀ c ∈ X.data, c ≠ '{') →
      renderBody fields (X ++ P) = X ++ renderBody fields P := by
  induction fields with
  | nil => intro X P _; rfl
  | cons kv fs ih =>
    intro X P hX
    show renderBody fs (jsReplaceAll (X ++ P) (ph kv.1) kv.2)
        = X ++ renderBody fs (jsReplaceAll P (ph kv.1) kv.2)
    rw [jsReplaceAll_append_left X P (ph kv.1) kv.2 hX ('{' :: (kv.1.data ++ ['}', '}']))
      (phData kv.1)]
    exact ih X _ hX

/-- The body replacement loop splits around a well-formed placeholder: with
brace-free text before it, word-character keys, and placeholder-free field values,
the placeholder is rewritten to the first-bound field value when its key is in the
record and kept intact otherwise, and the loop acts independently on the rest. -/
theorem renderBody_decomp (fields : List (String × String)) (pre key : String)
    (hpre : braceFree pre) (hkey : wordString key) :
    ∀ (post : String), (∀ p ∈ fields, wordString p.1 ∧ plainVal p.2) →
      renderBody fields (pre ++ ph key ++ post) =
        pre ++ bodyRep fields key ++ renderBody fields post := by
  have hpre2 : ∀ c ∈ pre.data, c ≠ '{' := fun c hc => (hpre c hc).1
  induction fields with
  | nil => intro post _; rfl
  | cons kv fs ih =>
    intro post hfields
    obtain ⟨ki, vi⟩ := kv
    have hkiw : wordString ki := (hfields (ki, vi) (List.mem_cons_self _ _)).1
    have hvip : plainVal vi := (hfields (ki, vi) (List.mem_cons_self _ _)).2
    have hftail : ∀ p ∈ fs, wordString p.1 ∧ plainVal p.2 :=
      fun p hp => hfields p (List.mem_cons_of_mem _ hp)
    by_cases hik : ki = key
    · subst hik
      show renderBody fs (jsReplaceAll (pre ++ ph ki ++ post) (ph ki) vi) = _
      rw [jsReplaceAll_match_str pre ki post vi hpre2]
      have hXvi : ∀ c ∈ (pre ++ vi).data, c ≠ '{' := by
        intro c hc
        rw [stringDataAppend] at hc
        rcases List.mem_append.mp hc with h | h
        · exact hpre2 c h
        · exact (hvip c h).1
      rw [show pre ++ vi ++ jsReplaceAll post (ph ki) vi
          = (pre ++ vi) ++ jsReplaceAll post (ph ki) vi from rfl]
      rw [renderBody_append_left fs (pre ++ vi) _ hXvi]
      have hrep : bodyRep ((ki, vi) :: fs) ki = vi := by
        unfold bodyRep
        simp [List.lookup]
      rw [hrep]
      rfl
    · show renderBody fs (jsReplaceAll (pre ++ ph key ++ post) (ph ki) vi) = _
      rw [jsReplaceAll_skip_str pre key post ki vi hpre2 hkiw hkey hik]
      rw [ih (jsReplaceAll post (ph ki) vi) hftail]
      have hrep : bodyRep ((ki, vi) :: fs) key = bodyRep fs key := by
        unfold bodyRep
        have hb : (key == ki) = false := beq_eq_false_iff_ne.mpr (fun he => hik he.symm)
        simp [List.lookup, hb]
      rw [hrep]
      rfl

/-- C5 (amended): when a campaign wave renders a recipient whose record has
word-character keys and brace- and dollar-free values, a placeholder preceded by
brace-free text behaves as follows. In the HTML body the placeholder is replaced
by the record's (first-bound) value for its key, and left literally intact when
the key is not a field of the record; in the subject it is replaced only when
that value is also non-empty — an absent key or an empty (falsy) value leaves the
placeholder literally intact. Rendering then continues independently on the rest
of the template, so every such occurrence is treated this way. -/
theorem C5_template_amended (fields : List (String × String)) (pre key post : String)
    (hpre : braceFree pre) (hkey : wordString key)
    (hfields : ∀ p ∈ fields, wordString p.1 ∧ plainVal p.2) :
    renderForRecipient fields (pre ++ ph key ++ post) (pre ++ ph key ++ post)
      = (pre ++ subjRep fields key ++ renderSubject fields post,
         pre ++ bodyRep fields key ++ renderBody fields post) := by
  unfold renderForRecipient
  rw [renderSubject_decomp fields pre key post hpre hkey]
  rw [renderBody_decomp fields pre key hpre hkey post hfields]

/-- Witness for C5's amended statement on the spec's own example record. -/
theorem C5_template_amended_witness :
    renderForRecipient [("name", "Ana")] ("Hi " ++ ph "name" ++ "") ("Hi " ++ ph "name" ++ "")
      = ("Hi " ++ subjRep [("name", "Ana")] "name" ++ renderSubject [("name", "Ana")] "",
         "Hi " ++ bodyRep [("name", "Ana")] "name" ++ renderBody [("name", "Ana")] "") :=
  C5_template_amended [("name", "Ana")] "Hi " "name" "" (by decide) (by decide) (by decide)

/-- Counterexample to C5 as stated: a key that is present in the record with an
empty value is not substituted in the subject (the truthiness callback keeps the
match), and a body substitution whose value is itself a placeholder is rewritten
again by a later key, so the occurrence is not replaced by that field's value
literally. -/
theorem C5_counterexample :
    renderSubject [("name", "")] ("Hi \x7b\x7bname\x7d\x7d") = "Hi \x7b\x7bname\x7d\x7d" ∧
      ¬ renderSubject [("name", "")] ("Hi \x7b\x7bname\x7d\x7d") = "Hi " ∧
      renderBody [("a", "\x7b\x7bb\x7d\x7d"), ("b", "X")] ("\x7b\x7ba\x7d\x7d") = "X" ∧
      ¬ renderBody [("a", "\x7b\x7bb\x7d\x7d"), ("b", "X")] ("\x7b\x7ba\x7d\x7d")
          = "\x7b\x7bb\x7d\x7d" := by
  decide
